import Mathlib

/-!
Verification of the Intcode-style virtual machine of this repository
(`src/2019/09/run.py`, `src/2019/11/run.py` — the full engine with growable
memory and relative addressing — and `src/2019/07/run.py` — the earlier
amplifier-chain revision, plus its `run_amplifier` feedback ring).

The Python code is embedded shallowly: memory is a `List Int`, the Python
list object mutated in place becomes explicit state threading, and the
`assert` / `raise` / `IndexError` failure paths become an `Except Err` layer.
Fuelled iteration replaces the unbounded `while True` loop.
-/

namespace AoC

/-! ## Decimal formatting of instruction words

The source decodes an instruction by formatting the memory word with
`f"{word:05d}"` (day 09/11) or `f"{word:04d}"` (day 07) and slicing the
string.  `natChars n` is the list of decimal digit characters of `n`, most
significant first, as produced by Python `str(n)` for `n ≥ 0` (so `natChars 0
= ['0']`).  The auxiliary carries fuel `f ≥ n` to keep the recursion
structural. -/

def natCharsAux : Nat → Nat → List Char
  | 0, n => [Nat.digitChar n]
  | f + 1, n =>
    if n < 10 then [Nat.digitChar n]
    else natCharsAux f (n / 10) ++ [Nat.digitChar (n % 10)]

def natChars (n : Nat) : List Char := natCharsAux n n

/-- Zero-padding on the left up to width `k`, as in `%0kd` for the digit part. -/
def padLeft (c : Char) (k : Nat) (l : List Char) : List Char :=
  List.replicate (k - l.length) c ++ l

/-- Numeric value of a decimal digit character (`int` on a digit string). -/
def digitVal (c : Char) : Nat := c.toNat - 48

/-- Value of a digit string, as Python `int(s)` for a string of digits. -/
def parseNat (cs : List Char) : Nat := cs.foldl (fun a c => 10 * a + digitVal c) 0

namespace Day09

/-- Fatal failure modes of the engine: the two `assert`/`raise` paths of the
source plus the `IndexError` raised by `self.outputs[-1]` on an
output-starved termination. -/
inductive Err where
  | outOfBounds : Err
  | unrecognized : Int → Err
  | emptyOutputs : Err
  deriving DecidableEq, Repr

/-- State of `IntProgram` (src/2019/09/run.py): memory (`self.program`, a
copy of the program), the two channel queues, the relative base
(`self.offset`) and the instruction pointer (`self.index`). -/
structure IntProgram where
  program : List Int
  inputs : List Int
  outputs : List Int
  offset : Int
  index : Int
  deriving DecidableEq, Repr

/-- The string `f"{w:05d}"`: zero-padded to width 5, the sign (for negative
`w`) counting toward the width and preceding the zeros. -/
def instrChars (w : Int) : List Char :=
  if w < 0 then '-' :: padLeft '0' 4 (natChars w.natAbs)
  else padLeft '0' 5 (natChars w.natAbs)

/-- `mode, opcode = instruction[:-2], int(instruction[-2:])` -/
def decode (w : Int) : Nat × List Char :=
  let cs := instrChars w
  (parseNat (cs.drop (cs.length - 2)), cs.take (cs.length - 2))

/-- `self.program.extend([0]*(index-len(self.program)+1))` when the index is
at or beyond the current extent. -/
def extend (p : List Int) (n : Nat) : List Int :=
  if p.length ≤ n then p ++ List.replicate (n + 1 - p.length) 0 else p

/-- `__getitem__`: assert non-negative, auto-extend with zeros, read. -/
def memRead (p : List Int) (i : Int) : Except Err (Int × List Int) :=
  if i < 0 then .error .outOfBounds
  else .ok ((extend p i.toNat).getD i.toNat 0, extend p i.toNat)

/-- `__setitem__`: assert non-negative, auto-extend with zeros, write. -/
def memWrite (p : List Int) (i : Int) (v : Int) : Except Err (List Int) :=
  if i < 0 then .error .outOfBounds
  else .ok ((extend p i.toNat).set i.toNat v)

/-- One iteration of the loop body of `get_indices`, resolving a single
operand: mode `'0'` replaces the raw index by the cell it points at, `'1'`
keeps it, `'2'` adds the relative base to the pointed-at cell, and any other
mode character falls through the `if`/`elif` chain leaving the raw index in
place.  The final `memRead` models the `self[index]` evaluated eagerly for
the `logger.warning("  referencing value: %d", self[index])` call, which can
extend memory (or trip the bounds assert) as a side effect. -/
def resolveOne (p : List Int) (off : Int) (m : Char) (i : Int) :
    Except Err (Int × List Int) :=
  match
    (if m = '0' then memRead p i
     else if m = '1' then .ok (i, p)
     else if m = '2' then
       match memRead p i with
       | .error e => .error e
       | .ok (t, p1) => .ok (t + off, p1)
     else .ok (i, p)) with
  | .error e => .error e
  | .ok (idx, p1) =>
    match memRead p1 idx with
    | .error e => .error e
    | .ok (_, p2) => .ok (idx, p2)

/-- `OPERATORS = {1: add, 2: mul, 7: lt, 8: eq}` with Python's
`int(operator(...))` turning the booleans of `lt`/`eq` into 0/1. -/
def applyOp (op : Nat) (a b : Int) : Int :=
  if op = 1 then a + b
  else if op = 2 then a * b
  else if op = 7 then (if a < b then 1 else 0)
  else (if a = b then 1 else 0)

/-- Outcome of executing one instruction: proceed, suspend awaiting input, or
halt (the `break` out of the loop). -/
inductive Ctl where
  | next : IntProgram → Ctl
  | suspend : IntProgram → Ctl
  | halt : IntProgram → Ctl
  deriving DecidableEq, Repr

/-- Arithmetic/comparison branch (`opcode in OPERATORS`).  `get_indices` is
called with the three operand positions — the instruction string has at
least five characters, hence `rm` (the reversed mode string) at least three
entries, so `zip` pairs all three and the `getD` default is never reached —
then `self[noun]`, `self[verb]` are read and the result stored. -/
def execOps (s : IntProgram) (op : Nat) (rm : List Char) : Except Err Ctl :=
  match resolveOne s.program s.offset (rm.getD 0 'x') (s.index + 1) with
  | .error e => .error e
  | .ok (noun, p1) =>
  match resolveOne p1 s.offset (rm.getD 1 'x') (s.index + 2) with
  | .error e => .error e
  | .ok (verb, p2) =>
  match resolveOne p2 s.offset (rm.getD 2 'x') (s.index + 3) with
  | .error e => .error e
  | .ok (outi, p3) =>
  match memRead p3 noun with
  | .error e => .error e
  | .ok (a, p4) =>
  match memRead p4 verb with
  | .error e => .error e
  | .ok (b, p5) =>
  match memWrite p5 outi (applyOp op a b) with
  | .error e => .error e
  | .ok p6 => .ok (.next { s with program := p6, index := s.index + 4 })

/-- Input branch (`opcode == 3`): with no queued input, return `None`
immediately — nothing is consumed and the instruction pointer stays put.
Otherwise resolve the destination and store `self.inputs.pop(0)`. -/
def execIn (s : IntProgram) (rm : List Char) : Except Err Ctl :=
  match s.inputs with
  | [] => .ok (.suspend s)
  | v :: rest =>
    match resolveOne s.program s.offset (rm.getD 0 'x') (s.index + 1) with
    | .error e => .error e
    | .ok (dst, p1) =>
    match memWrite p1 dst v with
    | .error e => .error e
    | .ok p2 =>
      .ok (.next { s with program := p2, inputs := rest, index := s.index + 2 })

/-- Output branch (`opcode == 4`): append `self[resolved]` to the output
queue. -/
def execOut (s : IntProgram) (rm : List Char) : Except Err Ctl :=
  match resolveOne s.program s.offset (rm.getD 0 'x') (s.index + 1) with
  | .error e => .error e
  | .ok (src, p1) =>
  match memRead p1 src with
  | .error e => .error e
  | .ok (v, p2) =>
    .ok (.next { s with program := p2, outputs := s.outputs ++ [v],
                        index := s.index + 2 })

/-- Jump branch (`opcode in (5, 6)`): `bool(self[condition]) == (opcode == 5)`
decides between `self.index = self[new_index]` and `self.index += 3`. -/
def execJump (s : IntProgram) (op : Nat) (rm : List Char) : Except Err Ctl :=
  match resolveOne s.program s.offset (rm.getD 0 'x') (s.index + 1) with
  | .error e => .error e
  | .ok (ci, p1) =>
  match resolveOne p1 s.offset (rm.getD 1 'x') (s.index + 2) with
  | .error e => .error e
  | .ok (ti, p2) =>
  match memRead p2 ci with
  | .error e => .error e
  | .ok (c, p3) =>
    if (c ≠ 0) ↔ (op = 5) then
      match memRead p3 ti with
      | .error e => .error e
      | .ok (t, p4) => .ok (.next { s with program := p4, index := t })
    else .ok (.next { s with program := p3, index := s.index + 3 })

/-- Relative-base branch (`opcode == 9`): `self.offset += self[resolved]`. -/
def execBase (s : IntProgram) (rm : List Char) : Except Err Ctl :=
  match resolveOne s.program s.offset (rm.getD 0 'x') (s.index + 1) with
  | .error e => .error e
  | .ok (ai, p1) =>
  match memRead p1 ai with
  | .error e => .error e
  | .ok (a, p2) =>
    .ok (.next { s with program := p2, offset := s.offset + a,
                        index := s.index + 2 })

/-- One iteration of the `while True` loop of `run`: fetch the word at the
instruction pointer (`self[self.index]`, itself a bounds-checked,
auto-extending read), decode it, and dispatch in the source's `if`/`elif`
order. -/
def step (s : IntProgram) : Except Err Ctl :=
  match memRead s.program s.index with
  | .error e => .error e
  | .ok (w, p0) =>
    let s0 : IntProgram := { s with program := p0 }
    let op := (decode w).1
    let rm := (decode w).2.reverse
    if op = 1 ∨ op = 2 ∨ op = 7 ∨ op = 8 then execOps s0 op rm
    else if op = 3 then execIn s0 rm
    else if op = 4 then execOut s0 rm
    else if op = 5 ∨ op = 6 then execJump s0 op rm
    else if op = 9 then execBase s0 rm
    else if op = 99 then .ok (.halt s0)
    else .error (.unrecognized w)

/-- Result of running the fetch/decode/execute loop itself (before the final
`return self.outputs[-1]`). -/
inductive LoopRes where
  | fuel : LoopRes
  | suspended : IntProgram → LoopRes
  | halted : IntProgram → LoopRes
  | failed : Err → LoopRes
  deriving DecidableEq, Repr

/-- The `while True` loop of `run`, bounded by fuel. -/
def loopFuel : Nat → IntProgram → LoopRes
  | 0, _ => .fuel
  | f + 1, s =>
    match step s with
    | .error e => .failed e
    | .ok (.next s1) => loopFuel f s1
    | .ok (.suspend s1) => .suspended s1
    | .ok (.halt s1) => .halted s1

/-- Result of one `run` call: suspension returns `None`; termination returns
`self.outputs[-1]`, which raises when no output was ever produced. -/
inductive RunRes where
  | fuel : RunRes
  | suspended : IntProgram → RunRes
  | returns : Int → IntProgram → RunRes
  | failed : Err → RunRes
  deriving DecidableEq, Repr

/-- `if value is not None: self.inputs.append(value)` -/
def pushOpt (s : IntProgram) (v : Option Int) : IntProgram :=
  match v with
  | none => s
  | some x => { s with inputs := s.inputs ++ [x] }

/-- `IntProgram.run`: optionally push one input, loop, and on termination
return the last output (an `IndexError` — `Err.emptyOutputs` — if the output
queue is empty). -/
def run (fuel : Nat) (s : IntProgram) (v : Option Int) : RunRes :=
  match loopFuel fuel (pushOpt s v) with
  | .fuel => .fuel
  | .suspended s1 => .suspended s1
  | .failed e => .failed e
  | .halted s1 =>
    match s1.outputs.getLast? with
    | none => .failed .emptyOutputs
    | some r => .returns r s1

/-- Driving the engine interactively: one `run` call per available input
value, resuming after each suspension, with a final bare `run` call when the
input list is exhausted. -/
def drive (fuel : Nat) (s : IntProgram) : List Int → RunRes
  | [] => run fuel s none
  | v :: vs =>
    match run fuel s (some v) with
    | .suspended s1 => drive fuel s1 vs
    | r => r

/-- Fresh engine for a program: memory is a copy of the program, channels
empty, both registers zero. -/
def init (program : List Int) : IntProgram :=
  { program := program, inputs := [], outputs := [], offset := 0, index := 0 }

/-- A program made solely of immediate-mode output instructions, one per
literal, terminated by halt: `104, v1, 104, v2, ..., 99`. -/
def outProg (vs : List Int) : List Int :=
  (vs.map fun v => [104, v]).flatten ++ [99]

end Day09

namespace Day07

/-- Failure modes of the day-07 engine and of `run_amplifier`: the
`ValueError` for an unknown opcode, the `IndexError` of plain Python list
indexing (also covering `outputs[-1]` on an empty list), and exhaustion of
the loop fuel of the embedding. -/
inductive Err where
  | unrecognized : Int → Err
  | indexError : Err
  | fuelOut : Err
  deriving DecidableEq, Repr

/-- State of `IntProgram` (src/2019/07/run.py): no relative base and no
bounds-checked memory accessor — memory is a plain Python list. -/
structure IntProgram where
  program : List Int
  inputs : List Int
  outputs : List Int
  index : Int
  deriving DecidableEq, Repr

/-- Python list subscript normalisation: a non-negative index must be within
range; a negative index `-n` silently counts from the end when `n ≤ len`,
and raises `IndexError` otherwise. -/
def pyIdx (p : List Int) (i : Int) : Except Err Nat :=
  if 0 ≤ i then
    if i.toNat < p.length then .ok i.toNat else .error .indexError
  else
    if i.natAbs ≤ p.length then .ok (p.length - i.natAbs) else .error .indexError

/-- `self.program[i]` with plain Python indexing. -/
def pyGet (p : List Int) (i : Int) : Except Err Int :=
  match pyIdx p i with
  | .error e => .error e
  | .ok n => .ok (p.getD n 0)

/-- `self.program[i] = v` with plain Python indexing. -/
def pySet (p : List Int) (i : Int) (v : Int) : Except Err (List Int) :=
  match pyIdx p i with
  | .error e => .error e
  | .ok n => .ok (p.set n v)

/-- The string `f"{w:04d}"`. -/
def instrChars (w : Int) : List Char :=
  if w < 0 then '-' :: padLeft '0' 3 (natChars w.natAbs)
  else padLeft '0' 4 (natChars w.natAbs)

/-- `mode, opcode = instruction[:-2], int(instruction[-2:])` -/
def decode (w : Int) : Nat × List Char :=
  let cs := instrChars w
  (parseNat (cs.drop (cs.length - 2)), cs.take (cs.length - 2))

/-- One element of the comprehension in `get_value`: `self.program[index]` in
immediate mode (`"1"`), `self.program[self.program[index]]` for every other
mode character. -/
def getValue (p : List Int) (m : Char) (i : Int) : Except Err Int :=
  if m = '1' then pyGet p i
  else
    match pyGet p i with
    | .error e => .error e
    | .ok t => pyGet p t

/-- Same operator table as day 09. -/
def applyOp (op : Nat) (a b : Int) : Int :=
  if op = 1 then a + b
  else if op = 2 then a * b
  else if op = 7 then (if a < b then 1 else 0)
  else (if a = b then 1 else 0)

inductive Ctl where
  | next : IntProgram → Ctl
  | suspend : IntProgram → Ctl
  | halt : IntProgram → Ctl
  deriving DecidableEq, Repr

/-- One iteration of the `while True` loop of the day-07 `run`: fetch
`self.program[self.index]` (plain indexing), decode with `%04d`, dispatch.
The write target of the operator branch and of the input branch is
`self.program[self.index+k]` read directly (mode string ignored); the jump
branch uses the already-resolved *values* for both condition and target. -/
def step (s : IntProgram) : Except Err Ctl :=
  match pyGet s.program s.index with
  | .error e => .error e
  | .ok w =>
    let op := (decode w).1
    let rm := (decode w).2.reverse
    if op = 1 ∨ op = 2 ∨ op = 7 ∨ op = 8 then
      match getValue s.program (rm.getD 0 'x') (s.index + 1) with
      | .error e => .error e
      | .ok a =>
      match getValue s.program (rm.getD 1 'x') (s.index + 2) with
      | .error e => .error e
      | .ok b =>
      match pyGet s.program (s.index + 3) with
      | .error e => .error e
      | .ok t =>
      match pySet s.program t (applyOp op a b) with
      | .error e => .error e
      | .ok p1 => .ok (.next { s with program := p1, index := s.index + 4 })
    else if op = 3 then
      match s.inputs with
      | [] => .ok (.suspend s)
      | v :: rest =>
        match pyGet s.program (s.index + 1) with
        | .error e => .error e
        | .ok t =>
        match pySet s.program t v with
        | .error e => .error e
        | .ok p1 =>
          .ok (.next { s with program := p1, inputs := rest,
                              index := s.index + 2 })
    else if op = 4 then
      match getValue s.program (rm.getD 0 'x') (s.index + 1) with
      | .error e => .error e
      | .ok v =>
        .ok (.next { s with outputs := s.outputs ++ [v], index := s.index + 2 })
    else if op = 5 ∨ op = 6 then
      match getValue s.program (rm.getD 0 'x') (s.index + 1) with
      | .error e => .error e
      | .ok c =>
      match getValue s.program (rm.getD 1 'x') (s.index + 2) with
      | .error e => .error e
      | .ok t =>
        if (c ≠ 0) ↔ (op = 5) then .ok (.next { s with index := t })
        else .ok (.next { s with index := s.index + 3 })
    else if op = 99 then .ok (.halt s)
    else .error (.unrecognized w)

inductive LoopRes where
  | fuel : LoopRes
  | suspended : IntProgram → LoopRes
  | halted : IntProgram → LoopRes
  | failed : Err → LoopRes
  deriving DecidableEq, Repr

def loopFuel : Nat → IntProgram → LoopRes
  | 0, _ => .fuel
  | f + 1, s =>
    match step s with
    | .error e => .failed e
    | .ok (.next s1) => loopFuel f s1
    | .ok (.suspend s1) => .suspended s1
    | .ok (.halt s1) => .halted s1

inductive RunRes where
  | fuel : RunRes
  | suspended : IntProgram → RunRes
  | returns : Int → IntProgram → RunRes
  | failed : Err → RunRes
  deriving DecidableEq, Repr

def pushOpt (s : IntProgram) (v : Option Int) : IntProgram :=
  match v with
  | none => s
  | some x => { s with inputs := s.inputs ++ [x] }

/-- The day-07 `IntProgram.run`: same contract as day 09's, returning
`self.outputs[-1]` on termination. -/
def run (fuel : Nat) (s : IntProgram) (v : Option Int) : RunRes :=
  match loopFuel fuel (pushOpt s v) with
  | .fuel => .fuel
  | .suspended s1 => .suspended s1
  | .failed e => .failed e
  | .halted s1 =>
    match s1.outputs.getLast? with
    | none => .failed .indexError
    | some r => .returns r s1

def init (program : List Int) : IntProgram :=
  { program := program, inputs := [], outputs := [], index := 0 }

/-! ### The feedback ring of `run_amplifier`

`links` is the tuple of five shared lists; amplifier `j` (0-based; the
source's `idx` runs 1..5) reads `links[j]` and appends to `links[(j+1) % 5]`.
Sharing by reference is modelled by extracting both queues before a `run`
call and storing the consumed/extended queues back afterwards. -/

structure Ring where
  progs : List (List Int × Int)
  links : List (List Int)
  deriving DecidableEq, Repr

/-- View amplifier `j` as an `IntProgram` over the shared queues. -/
def ampView (r : Ring) (j : Nat) : IntProgram :=
  { program := (r.progs.getD j ([], 0)).1
    inputs := r.links.getD j []
    outputs := r.links.getD ((j + 1) % 5) []
    index := (r.progs.getD j ([], 0)).2 }

/-- Store amplifier `j`'s state back into the ring. -/
def ampStore (r : Ring) (j : Nat) (m : IntProgram) : Ring :=
  { progs := r.progs.set j (m.program, m.index)
    links := (r.links.set j m.inputs).set ((j + 1) % 5) m.outputs }

/-- `value = amp.run(value)` for amplifier `j`: `None` becomes `none`, a
termination return value becomes `some`. -/
def ampRun (fuel : Nat) (r : Ring) (j : Nat) (v : Option Int) :
    Except Err (Option Int × Ring) :=
  match run fuel (ampView r j) v with
  | .returns x m => .ok (some x, ampStore r j m)
  | .suspended m => .ok (none, ampStore r j m)
  | .failed e => .error e
  | .fuel => .error .fuelOut

/-- `for amp, setting in zip(programs, settings): amp.run(setting)` -/
def feedPhases (fuel : Nat) (r : Ring) (settings : List Int) :
    Except Err Ring :=
  ((List.range 5).zip settings).foldlM
    (fun r js =>
      match ampRun fuel r js.1 (some js.2) with
      | .error e => .error e
      | .ok (_, r1) => .ok r1) r

/-- One round of `for amp in programs: value = amp.run(value)`. -/
def ringRound (fuel : Nat) (r : Ring) (v : Option Int) :
    Except Err (Option Int × Ring) :=
  match ampRun fuel r 0 v with
  | .error e => .error e
  | .ok (v1, r1) =>
  match ampRun fuel r1 1 v1 with
  | .error e => .error e
  | .ok (v2, r2) =>
  match ampRun fuel r2 2 v2 with
  | .error e => .error e
  | .ok (v3, r3) =>
  match ampRun fuel r3 3 v3 with
  | .error e => .error e
  | .ok (v4, r4) => ampRun fuel r4 4 v4

/-- `while True: ... if value is not None: break`, bounded by a round count. -/
def ringLoop (fuel : Nat) : Nat → Ring → Option Int → Except Err Int
  | 0, _, _ => .error .fuelOut
  | n + 1, r, v =>
    match ringRound fuel r v with
    | .error e => .error e
    | .ok (some x, _) => .ok x
    | .ok (none, r1) => ringLoop fuel n r1 none

/-- `run_amplifier(program, settings, start_value)`: five fresh copies of the
program wired in a circle, each fed its phase setting once, then round-robin
rounds threading the signal until the last amplifier terminates. -/
def runAmplifier (fuel rounds : Nat) (program settings : List Int)
    (startValue : Int) : Except Err Int :=
  let r0 : Ring :=
    { progs := List.replicate 5 (program, 0), links := List.replicate 5 [] }
  match feedPhases fuel r0 settings with
  | .error e => .error e
  | .ok r1 => ringLoop fuel rounds r1 (some startValue)

end Day07

namespace Day09

/-- The state carried by a step outcome. -/
def Ctl.state : Ctl → IntProgram
  | .next s => s
  | .suspend s => s
  | .halt s => s

/-! ### Memory lemmas -/

theorem extend_length (p : List Int) (n : Nat) :
    (extend p n).length = max p.length (n + 1) := by
  unfold extend
  split <;> simp <;> omega

theorem length_le_extend (p : List Int) (n : Nat) :
    p.length ≤ (extend p n).length := by
  rw [extend_length]; omega

theorem extend_of_lt {p : List Int} {n : Nat} (h : n < p.length) :
    extend p n = p := by
  unfold extend
  split
  · omega
  · rfl

theorem memRead_length {p : List Int} {i v : Int} {p1 : List Int}
    (h : memRead p i = .ok (v, p1)) : p.length ≤ p1.length := by
  unfold memRead at h
  split at h
  · cases h
  · obtain ⟨rfl, rfl⟩ := Prod.mk.injEq .. ▸ Except.ok.inj h
    exact length_le_extend ..

theorem memWrite_length {p : List Int} {i v : Int} {p1 : List Int}
    (h : memWrite p i v = .ok p1) : p.length ≤ p1.length := by
  unfold memWrite at h
  split at h
  · cases h
  · cases h
    rw [List.length_set]
    exact length_le_extend ..

theorem resolveOne_length {p : List Int} {off : Int} {m : Char} {i idx : Int}
    {p2 : List Int} (h : resolveOne p off m i = .ok (idx, p2)) :
    p.length ≤ p2.length := by
  unfold resolveOne at h
  split at h
  · cases h
  next idx1 p1 hfirst =>
    split at h
    · cases h
    next v p2h hsecond =>
      obtain ⟨rfl, rfl⟩ := Prod.mk.injEq .. ▸ Except.ok.inj h
      refine le_trans ?_ (memRead_length hsecond)
      split at hfirst
      · exact memRead_length hfirst
      · split at hfirst
        · obtain ⟨rfl, rfl⟩ := Prod.mk.injEq .. ▸ Except.ok.inj hfirst
          exact le_refl _
        · split at hfirst
          · split at hfirst
            · cases hfirst
            next t p3 hm =>
              obtain ⟨rfl, rfl⟩ := Prod.mk.injEq .. ▸ Except.ok.inj hfirst
              exact memRead_length hm
          · obtain ⟨rfl, rfl⟩ := Prod.mk.injEq .. ▸ Except.ok.inj hfirst
            exact le_refl _

/-- A fetch either leaves memory untouched or was an auto-extension, in which
case the value fetched is a padding zero. -/
theorem memRead_self_or_zero {p : List Int} {i w : Int} {p1 : List Int}
    (h : memRead p i = .ok (w, p1)) : p1 = p ∨ w = 0 := by
  unfold memRead at h
  split at h
  · cases h
  · obtain ⟨rfl, rfl⟩ := Prod.mk.injEq .. ▸ Except.ok.inj h
    by_cases hl : i.toNat < p.length
    · exact .inl (extend_of_lt hl)
    · refine .inr ?_
      unfold extend
      rw [if_pos (by omega)]
      rw [List.getD_eq_getElem?_getD, List.getElem?_append_right (by omega)]
      rcases Nat.lt_or_ge (i.toNat - p.length) (i.toNat + 1 - p.length) with hlt | hge
      · simp [List.getElem?_replicate, hlt]
      · omega

/-! ### Characterisation of each dispatch branch

Each branch reads and writes only the memory, registers and (for input and
output) one end of one queue; the lemmas below make that explicit by
quantifying over the untouched queue contents, and record that memory never
shrinks. -/

theorem execOps_char (p : List Int) (off i : Int) (op : Nat) (rm : List Char) :
    (∃ e, ∀ ins outs, execOps ⟨p, ins, outs, off, i⟩ op rm = .error e) ∨
    (∃ p6, p.length ≤ p6.length ∧ ∀ ins outs,
      execOps ⟨p, ins, outs, off, i⟩ op rm = .ok (.next ⟨p6, ins, outs, off, i + 4⟩)) := by
  cases h1 : resolveOne p off (rm.getD 0 'x') (i + 1) with
  | error e => exact .inl ⟨e, fun ins outs => by simp only [execOps, h1]⟩
  | ok r1 =>
  obtain ⟨noun, p1⟩ := r1
  cases h2 : resolveOne p1 off (rm.getD 1 'x') (i + 2) with
  | error e => exact .inl ⟨e, fun ins outs => by simp only [execOps, h1, h2]⟩
  | ok r2 =>
  obtain ⟨verb, p2⟩ := r2
  cases h3 : resolveOne p2 off (rm.getD 2 'x') (i + 3) with
  | error e => exact .inl ⟨e, fun ins outs => by simp only [execOps, h1, h2, h3]⟩
  | ok r3 =>
  obtain ⟨outi, p3⟩ := r3
  cases h4 : memRead p3 noun with
  | error e => exact .inl ⟨e, fun ins outs => by simp only [execOps, h1, h2, h3, h4]⟩
  | ok r4 =>
  obtain ⟨a, p4⟩ := r4
  cases h5 : memRead p4 verb with
  | error e => exact .inl ⟨e, fun ins outs => by simp only [execOps, h1, h2, h3, h4, h5]⟩
  | ok r5 =>
  obtain ⟨b, p5⟩ := r5
  cases h6 : memWrite p5 outi (applyOp op a b) with
  | error e => exact .inl ⟨e, fun ins outs => by simp only [execOps, h1, h2, h3, h4, h5, h6]⟩
  | ok p6 =>
    refine .inr ⟨p6, ?_, fun ins outs => by simp only [execOps, h1, h2, h3, h4, h5, h6]⟩
    calc p.length ≤ p1.length := resolveOne_length h1
    _ ≤ p2.length := resolveOne_length h2
    _ ≤ p3.length := resolveOne_length h3
    _ ≤ p4.length := memRead_length h4
    _ ≤ p5.length := memRead_length h5
    _ ≤ p6.length := memWrite_length h6

theorem execIn_char (p : List Int) (off i : Int) (rm : List Char) :
    (∀ outs, execIn ⟨p, [], outs, off, i⟩ rm = .ok (.suspend ⟨p, [], outs, off, i⟩)) ∧
    (∀ v : Int, (∃ e, ∀ rest outs, execIn ⟨p, v :: rest, outs, off, i⟩ rm = .error e) ∨
      (∃ p2, p.length ≤ p2.length ∧ ∀ rest outs,
        execIn ⟨p, v :: rest, outs, off, i⟩ rm = .ok (.next ⟨p2, rest, outs, off, i + 2⟩))) := by
  refine ⟨fun outs => by simp only [execIn], fun v => ?_⟩
  cases h1 : resolveOne p off (rm.getD 0 'x') (i + 1) with
  | error e => exact .inl ⟨e, fun rest outs => by simp only [execIn, h1]⟩
  | ok r1 =>
  obtain ⟨dst, p1⟩ := r1
  cases h2 : memWrite p1 dst v with
  | error e => exact .inl ⟨e, fun rest outs => by simp only [execIn, h1, h2]⟩
  | ok p2 =>
    exact .inr ⟨p2, le_trans (resolveOne_length h1) (memWrite_length h2),
      fun rest outs => by simp only [execIn, h1, h2]⟩

theorem execOut_char (p : List Int) (off i : Int) (rm : List Char) :
    (∃ e, ∀ ins outs, execOut ⟨p, ins, outs, off, i⟩ rm = .error e) ∨
    (∃ v p2, p.length ≤ p2.length ∧ ∀ ins outs,
      execOut ⟨p, ins, outs, off, i⟩ rm = .ok (.next ⟨p2, ins, outs ++ [v], off, i + 2⟩)) := by
  cases h1 : resolveOne p off (rm.getD 0 'x') (i + 1) with
  | error e => exact .inl ⟨e, fun ins outs => by simp only [execOut, h1]⟩
  | ok r1 =>
  obtain ⟨src, p1⟩ := r1
  cases h2 : memRead p1 src with
  | error e => exact .inl ⟨e, fun ins outs => by simp only [execOut, h1, h2]⟩
  | ok r2 =>
  obtain ⟨v, p2⟩ := r2
  exact .inr ⟨v, p2, le_trans (resolveOne_length h1) (memRead_length h2),
    fun ins outs => by simp only [execOut, h1, h2]⟩

theorem execJump_char (p : List Int) (off i : Int) (op : Nat) (rm : List Char) :
    (∃ e, ∀ ins outs, execJump ⟨p, ins, outs, off, i⟩ op rm = .error e) ∨
    (∃ p2 t, p.length ≤ p2.length ∧ ∀ ins outs,
      execJump ⟨p, ins, outs, off, i⟩ op rm = .ok (.next ⟨p2, ins, outs, off, t⟩)) := by
  cases h1 : resolveOne p off (rm.getD 0 'x') (i + 1) with
  | error e => exact .inl ⟨e, fun ins outs => by simp only [execJump, h1]⟩
  | ok r1 =>
  obtain ⟨ci, p1⟩ := r1
  cases h2 : resolveOne p1 off (rm.getD 1 'x') (i + 2) with
  | error e => exact .inl ⟨e, fun ins outs => by simp only [execJump, h1, h2]⟩
  | ok r2 =>
  obtain ⟨ti, p2⟩ := r2
  cases h3 : memRead p2 ci with
  | error e => exact .inl ⟨e, fun ins outs => by simp only [execJump, h1, h2, h3]⟩
  | ok r3 =>
  obtain ⟨c, p3⟩ := r3
  have hlen3 : p.length ≤ p3.length :=
    le_trans (resolveOne_length h1) (le_trans (resolveOne_length h2) (memRead_length h3))
  by_cases hc : (c ≠ 0) ↔ (op = 5)
  · cases h4 : memRead p3 ti with
    | error e =>
      exact .inl ⟨e, fun ins outs => by
        simp only [execJump, h1, h2, h3]; rw [if_pos hc]; simp only [h4]⟩
    | ok r4 =>
      obtain ⟨t, p4⟩ := r4
      exact .inr ⟨p4, t, le_trans hlen3 (memRead_length h4),
        fun ins outs => by
          simp only [execJump, h1, h2, h3]; rw [if_pos hc]; simp only [h4]⟩
  · exact .inr ⟨p3, i + 3, hlen3, fun ins outs => by
      simp only [execJump, h1, h2, h3]; rw [if_neg hc]⟩

theorem execBase_char (p : List Int) (off i : Int) (rm : List Char) :
    (∃ e, ∀ ins outs, execBase ⟨p, ins, outs, off, i⟩ rm = .error e) ∨
    (∃ p2 a, p.length ≤ p2.length ∧ ∀ ins outs,
      execBase ⟨p, ins, outs, off, i⟩ rm = .ok (.next ⟨p2, ins, outs, off + a, i + 2⟩)) := by
  cases h1 : resolveOne p off (rm.getD 0 'x') (i + 1) with
  | error e => exact .inl ⟨e, fun ins outs => by simp only [execBase, h1]⟩
  | ok r1 =>
  obtain ⟨ai, p1⟩ := r1
  cases h2 : memRead p1 ai with
  | error e => exact .inl ⟨e, fun ins outs => by simp only [execBase, h1, h2]⟩
  | ok r2 =>
  obtain ⟨a, p2⟩ := r2
  exact .inr ⟨p2, a, le_trans (resolveOne_length h1) (memRead_length h2),
    fun ins outs => by simp only [execBase, h1, h2]⟩

/-- A fetched word of opcode 3 or 99 cannot have come from an auto-extension
(padding cells are zero, and `decode 0` has opcode 0), so the fetch left
memory untouched. -/
theorem memRead_self_of_opcode {p : List Int} {i w : Int} {p1 : List Int}
    (h : memRead p i = .ok (w, p1)) (hop : (decode w).1 ≠ 0) : p1 = p := by
  rcases memRead_self_or_zero h with h1 | rfl
  · exact h1
  · exact absurd (by decide : (decode 0).1 = 0) hop

/-- Complete characterisation of one loop iteration as a function of memory
and registers: it fails, proceeds (touching at most memory, registers and
the tail of the output queue), sits at an input instruction (suspending on
an empty queue, popping exactly one value otherwise), or halts — and memory
never shrinks. -/
theorem step_char (p : List Int) (off i : Int) :
    (∃ e, ∀ ins outs, step ⟨p, ins, outs, off, i⟩ = .error e) ∨
    (∃ p1 off1 i1 ws, p.length ≤ p1.length ∧ ∀ ins outs,
      step ⟨p, ins, outs, off, i⟩ = .ok (.next ⟨p1, ins, outs ++ ws, off1, i1⟩)) ∨
    ((∃ w, memRead p i = .ok (w, p) ∧ (decode w).1 = 3) ∧
      (∀ outs, step ⟨p, [], outs, off, i⟩ = .ok (.suspend ⟨p, [], outs, off, i⟩)) ∧
      (∀ v : Int, (∃ e, ∀ rest outs, step ⟨p, v :: rest, outs, off, i⟩ = .error e) ∨
        (∃ p2, p.length ≤ p2.length ∧ ∀ rest outs,
          step ⟨p, v :: rest, outs, off, i⟩ = .ok (.next ⟨p2, rest, outs, off, i + 2⟩)))) ∨
    (∀ ins outs, step ⟨p, ins, outs, off, i⟩ = .ok (.halt ⟨p, ins, outs, off, i⟩)) := by
  cases hf : memRead p i with
  | error e => exact .inl ⟨e, fun ins outs => by simp only [step, hf]⟩
  | ok r =>
  obtain ⟨w, p0⟩ := r
  have hlen0 : p.length ≤ p0.length := memRead_length hf
  by_cases hops : (decode w).1 = 1 ∨ (decode w).1 = 2 ∨ (decode w).1 = 7 ∨ (decode w).1 = 8
  · rcases execOps_char p0 off i (decode w).1 (decode w).2.reverse with ⟨e, he⟩ | ⟨p6, hl, hn⟩
    · exact .inl ⟨e, fun ins outs => by
        simp only [step, hf]; rw [if_pos hops]; exact he ins outs⟩
    · exact .inr (.inl ⟨p6, off, i + 4, [], le_trans hlen0 hl, fun ins outs => by
        simp only [step, hf]; rw [if_pos hops]
        rw [hn ins outs, List.append_nil]⟩)
  · by_cases h3 : (decode w).1 = 3
    · have hp0 : p0 = p := memRead_self_of_opcode hf (by omega)
      rw [hp0] at hf
      obtain ⟨hsusp, hcons⟩ := execIn_char p off i (decode w).2.reverse
      refine .inr (.inr (.inl ⟨⟨w, by rw [hp0], h3⟩, ?_, ?_⟩))
      · intro outs
        simp only [step, hf]; rw [if_neg hops, if_pos h3]; exact hsusp outs
      · intro v
        rcases hcons v with ⟨e, he⟩ | ⟨p2, hl, hn⟩
        · exact .inl ⟨e, fun rest outs => by
            simp only [step, hf]; rw [if_neg hops, if_pos h3]; exact he rest outs⟩
        · exact .inr ⟨p2, hl, fun rest outs => by
            simp only [step, hf]; rw [if_neg hops, if_pos h3]; exact hn rest outs⟩
    · by_cases h4 : (decode w).1 = 4
      · rcases execOut_char p0 off i (decode w).2.reverse with ⟨e, he⟩ | ⟨v, p2, hl, hn⟩
        · exact .inl ⟨e, fun ins outs => by
            simp only [step, hf]; rw [if_neg hops, if_neg h3, if_pos h4]; exact he ins outs⟩
        · exact .inr (.inl ⟨p2, off, i + 2, [v], le_trans hlen0 hl, fun ins outs => by
            simp only [step, hf]; rw [if_neg hops, if_neg h3, if_pos h4]; exact hn ins outs⟩)
      · by_cases h56 : (decode w).1 = 5 ∨ (decode w).1 = 6
        · rcases execJump_char p0 off i (decode w).1 (decode w).2.reverse with
            ⟨e, he⟩ | ⟨p2, t, hl, hn⟩
          · exact .inl ⟨e, fun ins outs => by
              simp only [step, hf]
              rw [if_neg hops, if_neg h3, if_neg h4, if_pos h56]; exact he ins outs⟩
          · exact .inr (.inl ⟨p2, off, t, [], le_trans hlen0 hl, fun ins outs => by
              simp only [step, hf]
              rw [if_neg hops, if_neg h3, if_neg h4, if_pos h56]
              rw [hn ins outs, List.append_nil]⟩)
        · by_cases h9 : (decode w).1 = 9
          · rcases execBase_char p0 off i (decode w).2.reverse with ⟨e, he⟩ | ⟨p2, a, hl, hn⟩
            · exact .inl ⟨e, fun ins outs => by
                simp only [step, hf]
                rw [if_neg hops, if_neg h3, if_neg h4, if_neg h56, if_pos h9]
                exact he ins outs⟩
            · exact .inr (.inl ⟨p2, off + a, i + 2, [], le_trans hlen0 hl, fun ins outs => by
                simp only [step, hf]
                rw [if_neg hops, if_neg h3, if_neg h4, if_neg h56, if_pos h9]
                rw [hn ins outs, List.append_nil]⟩)
          · by_cases h99 : (decode w).1 = 99
            · have hp0 : p0 = p := memRead_self_of_opcode hf (by omega)
              rw [hp0] at hf
              exact .inr (.inr (.inr (fun ins outs => by
                simp only [step, hf]
                rw [if_neg hops, if_neg h3, if_neg h4, if_neg h56, if_neg h9, if_pos h99])))
            · exact .inl ⟨.unrecognized w, fun ins outs => by
                simp only [step, hf]
                rw [if_neg hops, if_neg h3, if_neg h4, if_neg h56, if_neg h9, if_neg h99]⟩

/-! ### Derived facts about `step` -/

/-- A suspension happens exactly in place: the returned state is the state
the instruction was attempted from, the input queue is empty, and the word
under the instruction pointer is an input instruction (the fetch not even
having extended memory). -/
theorem step_suspend_eq {s s1 : IntProgram} (h : step s = .ok (.suspend s1)) :
    s1 = s ∧ s.inputs = [] ∧
      ∃ w, memRead s.program s.index = .ok (w, s.program) ∧ (decode w).1 = 3 := by
  obtain ⟨p, ins, outs, off, i⟩ := s
  rcases step_char p off i with ⟨e, he⟩ | ⟨p1, off1, i1, ws, _, hn⟩ | ⟨hw, hs, hv⟩ | hh
  · rw [he ins outs] at h; exact Except.noConfusion h
  · rw [hn ins outs] at h; exact Ctl.noConfusion (Except.ok.inj h)
  · cases ins with
    | nil =>
      rw [hs outs] at h
      exact ⟨(Ctl.suspend.inj (Except.ok.inj h)).symm, rfl, hw⟩
    | cons v rest =>
      rcases hv v with ⟨e, he⟩ | ⟨p2, _, hn⟩
      · rw [he rest outs] at h; exact Except.noConfusion h
      · rw [hn rest outs] at h; exact Ctl.noConfusion (Except.ok.inj h)
  · rw [hh ins outs] at h; exact Ctl.noConfusion (Except.ok.inj h)

/-- Extending the back of the input queue commutes with a proceeding step:
the executed instruction sees the same queue front. -/
theorem step_next_app {s s1 : IntProgram} (w : List Int)
    (h : step s = .ok (.next s1)) :
    step { s with inputs := s.inputs ++ w } =
      .ok (.next { s1 with inputs := s1.inputs ++ w }) := by
  obtain ⟨p, ins, outs, off, i⟩ := s
  rcases step_char p off i with ⟨e, he⟩ | ⟨p1, off1, i1, ws, _, hn⟩ | ⟨hw, hs, hv⟩ | hh
  · rw [he ins outs] at h; exact Except.noConfusion h
  · rw [hn ins outs] at h
    obtain rfl := (Ctl.next.inj (Except.ok.inj h)).symm
    exact hn (ins ++ w) outs
  · cases ins with
    | nil => rw [hs outs] at h; exact Ctl.noConfusion (Except.ok.inj h)
    | cons v rest =>
      rcases hv v with ⟨e, he⟩ | ⟨p2, _, hn⟩
      · rw [he rest outs] at h; exact Except.noConfusion h
      · rw [hn rest outs] at h
        obtain rfl := (Ctl.next.inj (Except.ok.inj h)).symm
        exact hn (rest ++ w) outs
  · rw [hh ins outs] at h; exact Ctl.noConfusion (Except.ok.inj h)

/-- Extending the back of the input queue commutes with a halting step. -/
theorem step_halt_app {s s1 : IntProgram} (w : List Int)
    (h : step s = .ok (.halt s1)) :
    step { s with inputs := s.inputs ++ w } =
      .ok (.halt { s1 with inputs := s1.inputs ++ w }) := by
  obtain ⟨p, ins, outs, off, i⟩ := s
  rcases step_char p off i with ⟨e, he⟩ | ⟨p1, off1, i1, ws, _, hn⟩ | ⟨hw, hs, hv⟩ | hh
  · rw [he ins outs] at h; exact Except.noConfusion h
  · rw [hn ins outs] at h; exact Ctl.noConfusion (Except.ok.inj h)
  · cases ins with
    | nil => rw [hs outs] at h; exact Ctl.noConfusion (Except.ok.inj h)
    | cons v rest =>
      rcases hv v with ⟨e, he⟩ | ⟨p2, _, hn⟩
      · rw [he rest outs] at h; exact Except.noConfusion h
      · rw [hn rest outs] at h; exact Ctl.noConfusion (Except.ok.inj h)
  · rw [hh ins outs] at h
    obtain rfl := (Ctl.halt.inj (Except.ok.inj h)).symm
    exact hh (ins ++ w) outs

/-- One step never shrinks memory. -/
theorem step_length {s : IntProgram} {c : Ctl} (h : step s = .ok c) :
    s.program.length ≤ c.state.program.length := by
  obtain ⟨p, ins, outs, off, i⟩ := s
  rcases step_char p off i with ⟨e, he⟩ | ⟨p1, off1, i1, ws, hl, hn⟩ | ⟨hw, hs, hv⟩ | hh
  · rw [he ins outs] at h; exact Except.noConfusion h
  · rw [hn ins outs] at h
    obtain rfl := (Except.ok.inj h).symm
    exact hl
  · cases ins with
    | nil =>
      rw [hs outs] at h
      obtain rfl := (Except.ok.inj h).symm
      exact le_refl _
    | cons v rest =>
      rcases hv v with ⟨e, he⟩ | ⟨p2, hl, hn⟩
      · rw [he rest outs] at h; exact Except.noConfusion h
      · rw [hn rest outs] at h
        obtain rfl := (Except.ok.inj h).symm
        exact hl
  · rw [hh ins outs] at h
    obtain rfl := (Except.ok.inj h).symm
    exact le_refl _

/-- Reaching an input instruction with an empty input queue suspends,
leaving the state — instruction pointer, memory, relative base and queues —
exactly as it was. -/
theorem step_input_empty {s : IntProgram} {w : Int} {p1 : List Int}
    (hf : memRead s.program s.index = .ok (w, p1)) (hop : (decode w).1 = 3)
    (hin : s.inputs = []) : step s = .ok (.suspend s) := by
  have hp : p1 = s.program := memRead_self_of_opcode hf (by omega)
  rw [hp] at hf
  obtain ⟨p, ins, outs, off, i⟩ := s
  simp only [step, hf]
  rw [if_neg (by omega), if_pos hop]
  simp only at hin
  simp only [execIn, hin]

/-! ### Facts about the run loop -/

/-- More fuel never changes a decided (non-fuel-exhausted) outcome. -/
theorem loopFuel_mono {f : Nat} : ∀ {g : Nat} {s : IntProgram} {r : LoopRes},
    f ≤ g → loopFuel f s = r → r ≠ .fuel → loopFuel g s = r := by
  induction f with
  | zero =>
    intro g s r _ h hr
    rw [← h] at hr
    simp [loopFuel] at hr
  | succ f ih =>
    intro g s r hfg h hr
    obtain ⟨g1, rfl⟩ : ∃ g1, g = g1 + 1 := ⟨g - 1, by omega⟩
    simp only [loopFuel] at h ⊢
    cases hs : step s with
    | error e => rw [hs] at h; exact h
    | ok c =>
      rw [hs] at h
      cases c with
      | next s1 => exact ih (by omega) h hr
      | suspend s1 => exact h
      | halt s1 => exact h

/-- Across a whole run, memory never shrinks. -/
theorem loopFuel_length {f : Nat} : ∀ {s s1 : IntProgram},
    loopFuel f s = .suspended s1 ∨ loopFuel f s = .halted s1 →
    s.program.length ≤ s1.program.length := by
  induction f with
  | zero => intro s s1 h; rcases h with h | h <;> simp [loopFuel] at h
  | succ f ih =>
    intro s s1 h
    simp only [loopFuel] at h
    cases hs : step s with
    | error e => rw [hs] at h; rcases h with h | h <;> exact LoopRes.noConfusion h
    | ok c =>
      rw [hs] at h
      cases c with
      | next s2 => exact le_trans (step_length hs) (ih h)
      | suspend s2 =>
        rcases h with h | h
        · obtain rfl := (LoopRes.suspended.inj h).symm
          exact step_length hs
        · exact LoopRes.noConfusion h
      | halt s2 =>
        rcases h with h | h
        · exact LoopRes.noConfusion h
        · obtain rfl := (LoopRes.halted.inj h).symm
          exact step_length hs

/-- Whatever state a run suspends in is parked at an input instruction with
an empty input queue, and stepping it again just suspends again. -/
theorem loopFuel_suspended_char {f : Nat} : ∀ {s s1 : IntProgram},
    loopFuel f s = .suspended s1 →
    s1.inputs = [] ∧
      (∃ w, memRead s1.program s1.index = .ok (w, s1.program) ∧ (decode w).1 = 3) ∧
      step s1 = .ok (.suspend s1) := by
  induction f with
  | zero => intro s s1 h; simp [loopFuel] at h
  | succ f ih =>
    intro s s1 h
    simp only [loopFuel] at h
    cases hs : step s with
    | error e => rw [hs] at h; exact LoopRes.noConfusion h
    | ok c =>
      rw [hs] at h
      cases c with
      | next s2 => exact ih h
      | suspend s2 =>
        obtain rfl := (LoopRes.suspended.inj h).symm
        obtain ⟨rfl, hin, hw⟩ := step_suspend_eq hs
        exact ⟨hin, hw, hs⟩
      | halt s2 => exact LoopRes.noConfusion h

/-- A run that terminates does so identically if extra values are queued
behind the inputs it actually consumed. -/
theorem loopFuel_halted_app {f : Nat} : ∀ {s s1 : IntProgram} (w : List Int),
    loopFuel f s = .halted s1 →
    loopFuel f { s with inputs := s.inputs ++ w } =
      .halted { s1 with inputs := s1.inputs ++ w } := by
  induction f with
  | zero => intro s s1 w h; simp [loopFuel] at h
  | succ f ih =>
    intro s s1 w h
    simp only [loopFuel] at h ⊢
    cases hs : step s with
    | error e => rw [hs] at h; exact LoopRes.noConfusion h
    | ok c =>
      rw [hs] at h
      cases c with
      | next s2 => rw [step_next_app w hs]; exact ih w h
      | suspend s2 => exact LoopRes.noConfusion h
      | halt s2 =>
        obtain rfl := (LoopRes.halted.inj h).symm
        rw [step_halt_app w hs]

/-- Composing across a suspension: if a run suspends, and resuming the
suspended state with additional queued input terminates, then the run with
that input queued from the start terminates the same way. -/
theorem loopFuel_suspend_then {f : Nat} :
    ∀ {s s1 : IntProgram} {g : Nat} {w : List Int} {s2 : IntProgram},
    loopFuel f s = .suspended s1 →
    loopFuel g { s1 with inputs := s1.inputs ++ w } = .halted s2 →
    loopFuel (f + g) { s with inputs := s.inputs ++ w } = .halted s2 := by
  induction f with
  | zero => intro s s1 g w s2 hsusp _; simp [loopFuel] at hsusp
  | succ f ih =>
    intro s s1 g w s2 hsusp hhalt
    have harith : f + 1 + g = (f + g) + 1 := by omega
    rw [harith]
    simp only [loopFuel] at hsusp ⊢
    cases hs : step s with
    | error e => rw [hs] at hsusp; exact LoopRes.noConfusion hsusp
    | ok c =>
      rw [hs] at hsusp
      cases c with
      | next s3 =>
        rw [step_next_app w hs]
        exact ih hsusp hhalt
      | suspend s3 =>
        obtain rfl := (LoopRes.suspended.inj hsusp).symm
        obtain ⟨rfl, -, -⟩ := step_suspend_eq hs
        exact loopFuel_mono (show g ≤ f + g + 1 by omega) hhalt (by simp)
      | halt s3 => exact LoopRes.noConfusion hsusp

/-- Unfolding lemma: a state parked at its own suspension point suspends for
any positive fuel. -/
theorem loopFuel_of_suspend {s : IntProgram} (hstep : step s = .ok (.suspend s))
    (f : Nat) : loopFuel (f + 1) s = .suspended s := by
  simp only [loopFuel, hstep]

end Day09

/-! ### Arithmetic facts about the decimal formatting -/

theorem natCharsAux_fuel {f : Nat} : ∀ {g n : Nat}, n ≤ f → n ≤ g →
    natCharsAux f n = natCharsAux g n := by
  induction f with
  | zero =>
    intro g n hf _
    interval_cases n
    cases g <;> simp [natCharsAux]
  | succ f ih =>
    intro g n hf hg
    cases g with
    | zero =>
      interval_cases n
      simp [natCharsAux]
    | succ g1 =>
      simp only [natCharsAux]
      by_cases hn : n < 10
      · rw [if_pos hn, if_pos hn]
      · rw [if_neg hn, if_neg hn]
        rw [ih (show n / 10 ≤ f by omega) (show n / 10 ≤ g1 by omega)]

/-- The recursion `natChars` actually performs. -/
theorem natChars_unfold (n : Nat) :
    natChars n = if n < 10 then [Nat.digitChar n]
      else natChars (n / 10) ++ [Nat.digitChar (n % 10)] := by
  unfold natChars
  cases n with
  | zero => simp [natCharsAux]
  | succ n =>
    simp only [natCharsAux]
    by_cases hn : n + 1 < 10
    · rw [if_pos hn, if_pos hn]
    · rw [if_neg hn, if_neg hn]
      rw [natCharsAux_fuel (by omega) (le_refl _)]

theorem digitVal_digitChar : ∀ d < 10, digitVal (Nat.digitChar d) = d := by decide

theorem natChars_lt_pow (m : Nat) : m < 10 ^ (natChars m).length := by
  induction m using Nat.strong_induction_on with
  | _ m ih =>
    rw [natChars_unfold]
    by_cases hm : m < 10
    · rw [if_pos hm]
      simpa using hm
    · rw [if_neg hm]
      have h1 := ih (m / 10) (by omega)
      simp only [List.length_append, List.length_singleton, pow_succ]
      omega

theorem natChars_rev_getD (m k : Nat) :
    (natChars m).reverse.getD k '0' = Nat.digitChar (m / 10 ^ k % 10) := by
  induction m using Nat.strong_induction_on generalizing k with
  | _ m ih =>
    rw [natChars_unfold]
    by_cases hm : m < 10
    · rw [if_pos hm]
      cases k with
      | zero => simp [Nat.mod_eq_of_lt hm]
      | succ k =>
        have hten : (10 : Nat) ≤ 10 ^ (k + 1) := by
          calc (10 : Nat) = 10 ^ 1 := (pow_one 10).symm
          _ ≤ 10 ^ (k + 1) := Nat.pow_le_pow_right (by norm_num) (by omega)
        have h0 : m / 10 ^ (k + 1) = 0 := Nat.div_eq_of_lt (by omega)
        simp [List.getD, h0]
        rfl
    · rw [if_neg hm]
      rw [List.reverse_append]
      cases k with
      | zero => simp
      | succ k =>
        have hrec := ih (m / 10) (by omega) k
        have hdiv : m / 10 / 10 ^ k = m / 10 ^ (k + 1) := by
          rw [Nat.div_div_eq_div_mul, pow_succ, mul_comm (10 ^ k) 10,
            ← pow_succ']
        simp only [List.reverse_singleton, List.singleton_append, List.getD_cons_succ]
        rw [hrec, hdiv]

theorem getD_replicate (j k : Nat) (c : Char) :
    (List.replicate j c).getD k c = c := by
  rw [List.getD_eq_getElem?_getD, List.getElem?_replicate]
  by_cases h : k < j <;> simp [h]

theorem rev_getD_pad (j m k : Nat) :
    (List.replicate j '0' ++ natChars m).reverse.getD k '0' =
      Nat.digitChar (m / 10 ^ k % 10) := by
  rw [List.reverse_append, List.reverse_replicate]
  by_cases h : k < (natChars m).reverse.length
  · rw [List.getD_append _ _ _ _ h]
    exact natChars_rev_getD m k
  · rw [List.getD_append_right _ _ _ _ (by omega)]
    rw [getD_replicate]
    have hlen : (natChars m).length ≤ k := by simpa using Nat.le_of_not_lt h
    have hp : m < 10 ^ k :=
      lt_of_lt_of_le (natChars_lt_pow m) (Nat.pow_le_pow_right (by norm_num) hlen)
    rw [Nat.div_eq_of_lt hp]
    rfl

theorem padLeft_length (c : Char) (k : Nat) (l : List Char) :
    (padLeft c k l).length = max k l.length := by
  simp [padLeft]
  omega

/-- A zero-padded decimal rendering of width at least two always ends in the
characters of the low two digits. -/
theorem pad_split (k : Nat) (hk : 2 ≤ k) (m : Nat) :
    ∃ Y : List Char, padLeft '0' k (natChars m) =
      Y ++ [Nat.digitChar (m / 10 % 10), Nat.digitChar (m % 10)] := by
  by_cases h1 : m < 10
  · refine ⟨List.replicate (k - 2) '0', ?_⟩
    unfold padLeft
    rw [natChars_unfold, if_pos h1]
    have hd : m / 10 % 10 = 0 := by omega
    have hm : m % 10 = m := Nat.mod_eq_of_lt h1
    rw [hd, hm, List.length_singleton]
    have hk1 : k - 1 = (k - 2) + 1 := by omega
    rw [hk1, List.replicate_succ']
    simp [Nat.digitChar]
  · by_cases h2 : m < 100
    · refine ⟨List.replicate (k - 2) '0', ?_⟩
      unfold padLeft
      have e1 : natChars m = [Nat.digitChar (m / 10), Nat.digitChar (m % 10)] := by
        rw [natChars_unfold, if_neg h1, natChars_unfold,
          if_pos (show m / 10 < 10 by omega)]
        rfl
      rw [e1]
      have hd : m / 10 % 10 = m / 10 := Nat.mod_eq_of_lt (by omega)
      rw [hd]
      rfl
    · refine ⟨List.replicate (k - (natChars m).length) '0' ++ natChars (m / 100), ?_⟩
      unfold padLeft
      have e1 : natChars m =
          natChars (m / 100) ++ [Nat.digitChar (m / 10 % 10), Nat.digitChar (m % 10)] := by
        conv_lhs => rw [natChars_unfold, if_neg h1]
        rw [natChars_unfold (m / 10), if_neg (show ¬ m / 10 < 10 by omega)]
        rw [Nat.div_div_eq_div_mul]
        simp [List.append_assoc]
      conv_lhs => rw [e1]
      rw [← List.append_assoc]
      conv_rhs => rw [e1]

theorem parse_lastTwo (k : Nat) (hk : 2 ≤ k) (m : Nat) :
    parseNat ((padLeft '0' k (natChars m)).drop
      ((padLeft '0' k (natChars m)).length - 2)) = m % 100 := by
  obtain ⟨Y, hY⟩ := pad_split k hk m
  rw [hY]
  have hlen : (Y ++ [Nat.digitChar (m / 10 % 10), Nat.digitChar (m % 10)]).length - 2
      = Y.length := by
    simp
  rw [hlen, List.drop_left]
  unfold parseNat
  simp only [List.foldl_cons, List.foldl_nil]
  rw [digitVal_digitChar _ (by omega), digitVal_digitChar _ (by omega)]
  omega

end AoC

namespace AoC

namespace Day09

/-- The opcode produced by the string slicing is the low two decimal digits
of the absolute value of the word (the sign, if present, lands in the mode
part of the string). -/
theorem decode_fst (w : Int) : (decode w).1 = w.natAbs % 100 := by
  simp only [decode, instrChars]
  by_cases hw : w < 0
  · rw [if_pos hw]
    have hA : 4 ≤ (padLeft '0' 4 (natChars w.natAbs)).length := by
      rw [padLeft_length]; omega
    have hlen : ('-' :: padLeft '0' 4 (natChars w.natAbs)).length - 2
        = ((padLeft '0' 4 (natChars w.natAbs)).length - 2) + 1 := by
      rw [List.length_cons]; omega
    rw [hlen, List.drop_succ_cons]
    exact parse_lastTwo 4 (by norm_num) w.natAbs
  · rw [if_neg hw]
    exact parse_lastTwo 5 (by norm_num) w.natAbs

/-- The reversed mode string, read with positional default: character `k` is
the decimal digit of the word at position `k + 2` (so a mode digit when one
was written, and the `'0'` default beyond the digits present). -/
theorem decode_modes (w : Int) (hw : 0 ≤ w) (k : Nat) :
    (decode w).2.reverse.getD k '0' = Nat.digitChar (w.natAbs / 10 ^ (k + 2) % 10) := by
  have hnw : ¬ w < 0 := not_lt.2 hw
  simp only [decode, instrChars, if_neg hnw, padLeft]
  set cs := List.replicate (5 - (natChars w.natAbs).length) '0' ++ natChars w.natAbs
    with hcs
  have hlen : 5 ≤ cs.length := by
    rw [hcs, List.length_append, List.length_replicate]; omega
  have hdroplen : (cs.drop (cs.length - 2)).length = 2 := by
    rw [List.length_drop]; omega
  have hsplit : cs.reverse
      = (cs.drop (cs.length - 2)).reverse ++ (cs.take (cs.length - 2)).reverse := by
    rw [← List.reverse_append, List.take_append_drop]
  have hgd : (cs.take (cs.length - 2)).reverse.getD k '0'
      = cs.reverse.getD (k + 2) '0' := by
    rw [hsplit, List.getD_append_right _ _ _ _
      (by rw [List.length_reverse, hdroplen]; omega)]
    rw [List.length_reverse, hdroplen]
    have h2 : k + 2 - 2 = k := by omega
    rw [h2]
  rw [hgd, hcs]
  exact rev_getD_pad _ _ (k + 2)

/-! ### The three operand resolution rules of `get_indices` -/

theorem memRead_nonneg (p : List Int) {i : Int} (hi : 0 ≤ i) :
    memRead p i = .ok ((extend p i.toNat).getD i.toNat 0, extend p i.toNat) := by
  rw [memRead, if_neg (not_lt.2 hi)]

theorem resolveOne_positional {p : List Int} {off i v : Int} {p1 : List Int}
    (h : memRead p i = .ok (v, p1)) (hv : 0 ≤ v) :
    resolveOne p off '0' i = .ok (v, extend p1 v.toNat) := by
  unfold resolveOne
  rw [if_pos rfl, h]
  simp only [memRead_nonneg p1 hv]

theorem resolveOne_immediate (p : List Int) (off : Int) {i : Int} (hi : 0 ≤ i) :
    resolveOne p off '1' i = .ok (i, extend p i.toNat) := by
  unfold resolveOne
  rw [if_neg (by decide), if_pos rfl]
  simp only [memRead_nonneg p hi]

theorem resolveOne_relative {p : List Int} {off i v : Int} {p1 : List Int}
    (h : memRead p i = .ok (v, p1)) (hvo : 0 ≤ v + off) :
    resolveOne p off '2' i = .ok (v + off, extend p1 (v + off).toNat) := by
  unfold resolveOne
  rw [if_neg (by decide), if_neg (by decide), if_pos rfl, h]
  simp only [memRead_nonneg p1 hvo]

/-- Any mode character outside `{'0', '1', '2'}` takes the same fall-through
path as immediate mode: the raw operand cell index is used unchanged, and
the whole resolution (including the eager logging read) is identical to
mode `'1'`. -/
theorem resolveOne_fallthrough (p : List Int) (off : Int) (m : Char) (i : Int)
    (h0 : m ≠ '0') (h1 : m ≠ '1') (h2 : m ≠ '2') :
    resolveOne p off m i = resolveOne p off '1' i := by
  unfold resolveOne
  rw [if_neg h0, if_neg h1, if_neg h2]
  rw [if_neg (show ¬('1' = '0') by decide), if_pos rfl]

/-! ### The `run` wrapper -/

theorem run_returns {fuel : Nat} {s : IntProgram} {v : Option Int} {r : Int}
    {s1 : IntProgram} (h : run fuel s v = .returns r s1) :
    loopFuel fuel (pushOpt s v) = .halted s1 ∧ s1.outputs.getLast? = some r := by
  unfold run at h
  cases hl : loopFuel fuel (pushOpt s v) with
  | fuel => simp [hl] at h
  | suspended s2 => simp [hl] at h
  | failed e => simp [hl] at h
  | halted s2 =>
    cases hg : s2.outputs.getLast? with
    | none => simp [hl, hg] at h
    | some r2 =>
      simp only [hl, hg] at h
      obtain ⟨rfl, rfl⟩ := RunRes.returns.inj h
      exact ⟨rfl, hg⟩

theorem run_of_halted {fuel : Nat} {s : IntProgram} {v : Option Int}
    {s1 : IntProgram} {r : Int} (hg : s1.outputs.getLast? = some r)
    (hl : loopFuel fuel (pushOpt s v) = .halted s1) :
    run fuel s v = .returns r s1 := by
  unfold run
  simp only [hl, hg]

theorem run_of_halted_none {fuel : Nat} {s : IntProgram} {v : Option Int}
    {s1 : IntProgram} (hg : s1.outputs.getLast? = none)
    (hl : loopFuel fuel (pushOpt s v) = .halted s1) :
    run fuel s v = .failed .emptyOutputs := by
  unfold run
  simp only [hl, hg]

theorem run_suspended {fuel : Nat} {s : IntProgram} {v : Option Int}
    {s1 : IntProgram} (h : run fuel s v = .suspended s1) :
    loopFuel fuel (pushOpt s v) = .suspended s1 := by
  unfold run at h
  cases hl : loopFuel fuel (pushOpt s v) with
  | fuel => simp [hl] at h
  | suspended s2 =>
    simp only [hl] at h
    exact congrArg LoopRes.suspended (RunRes.suspended.inj h)
  | failed e => simp [hl] at h
  | halted s2 =>
    cases hg : s2.outputs.getLast? with
    | none => simp [hl, hg] at h
    | some r2 => simp [hl, hg] at h

/-! ### Concrete steps of output-literal programs -/

theorem getD_append_len (pre D : List Int) (k : Nat) :
    (pre ++ D).getD (pre.length + k) 0 = D.getD k 0 := by
  rw [List.getD_append_right _ _ _ _ (by omega)]
  congr 1
  omega

theorem memRead_at (k : Nat) {pre D : List Int} {j : Int}
    (hj : j = (pre.length : Int) + k) (hk : k < D.length) :
    memRead (pre ++ D) j = .ok (D.getD k 0, pre ++ D) := by
  subst hj
  unfold memRead
  rw [if_neg (by omega)]
  have ht : ((pre.length : Int) + k).toNat = pre.length + k := by omega
  rw [ht, extend_of_lt (by simp; omega), getD_append_len]

/-- One output instruction `104, v` at the instruction pointer appends the
literal and advances by two. -/
theorem step_out104 (pre : List Int) (v : Int) (rest ins outs : List Int)
    (off : Int) :
    step ⟨pre ++ (104 :: v :: rest), ins, outs, off, (pre.length : Int)⟩ =
      .ok (.next ⟨pre ++ (104 :: v :: rest), ins, outs ++ [v], off,
        (pre.length : Int) + 2⟩) := by
  have hfetch : memRead (pre ++ (104 :: v :: rest)) ((pre.length : Int))
      = .ok (104, pre ++ (104 :: v :: rest)) :=
    memRead_at 0 (by push_cast; ring) (by simp)
  have hres : resolveOne (pre ++ (104 :: v :: rest)) off '1' ((pre.length : Int) + 1)
      = .ok ((pre.length : Int) + 1, pre ++ (104 :: v :: rest)) := by
    have h1 := resolveOne_immediate (pre ++ (104 :: v :: rest)) off
      (show (0 : Int) ≤ (pre.length : Int) + 1 by omega)
    rw [h1]
    have ht : (((pre.length : Int)) + 1).toNat = pre.length + 1 := by omega
    rw [ht, extend_of_lt (by simp)]
  have hval : memRead (pre ++ (104 :: v :: rest)) ((pre.length : Int) + 1)
      = .ok (v, pre ++ (104 :: v :: rest)) := by
    have h1 := memRead_at 1 (show (pre.length : Int) + 1 = (pre.length : Int) + (1 : Nat)
      by push_cast; ring) (show 1 < (104 :: v :: rest).length by simp)
    exact h1
  simp only [step, hfetch]
  show execOut ⟨pre ++ (104 :: v :: rest), ins, outs, off, (pre.length : Int)⟩
    ['1', '0', '0'] = _
  simp only [execOut, List.getD_cons_zero, hres, hval]

/-- The halt instruction at the instruction pointer stops the loop without
touching anything. -/
theorem step_halt99 (pre ins outs : List Int) (off : Int) :
    step ⟨pre ++ [99], ins, outs, off, (pre.length : Int)⟩ =
      .ok (.halt ⟨pre ++ [99], ins, outs, off, (pre.length : Int)⟩) := by
  have hfetch : memRead (pre ++ [99]) ((pre.length : Int))
      = .ok (99, pre ++ [99]) :=
    memRead_at 0 (by push_cast; ring) (by simp)
  simp only [step, hfetch]
  rfl

/-- One proceeding iteration of the loop just recurses with one unit of fuel
spent. -/
theorem loopFuel_next {s s1 : IntProgram} (h : step s = .ok (.next s1))
    (f : Nat) : loopFuel (f + 1) s = loopFuel f s1 := by
  simp only [loopFuel, h]

/-- Running an output-literal program from any position: each `104, v` pair
appends its literal, and the final `99` halts, leaving everything else
untouched. -/
theorem c9_aux : ∀ (vs pre ins outs : List Int) (off : Int),
    loopFuel (vs.length + 1)
      ⟨pre ++ ((vs.map fun v => [104, v]).flatten ++ [99]), ins, outs, off,
        (pre.length : Int)⟩
    = .halted ⟨pre ++ ((vs.map fun v => [104, v]).flatten ++ [99]), ins,
        outs ++ vs, off, (pre.length : Int) + 2 * (vs.length : Int)⟩ := by
  intro vs
  induction vs with
  | nil =>
    intro pre ins outs off
    rw [show ([] : List Int).length + 1 = 0 + 1 from rfl]
    simp only [List.map_nil, List.flatten_nil, List.nil_append]
    simp only [loopFuel, step_halt99]
    simp
  | cons v rest ih =>
    intro pre ins outs off
    have hprog : (((v :: rest).map fun x => [104, x]).flatten ++ [99])
        = 104 :: v :: ((rest.map fun x => [104, x]).flatten ++ [99]) := by
      simp
    rw [hprog]
    rw [show (v :: rest).length + 1 = (rest.length + 1) + 1 by simp]
    rw [loopFuel_next (step_out104 pre v
      ((rest.map fun x => [104, x]).flatten ++ [99]) ins outs off) (rest.length + 1)]
    have hre : pre ++ 104 :: v :: ((rest.map fun x => [104, x]).flatten ++ [99])
        = (pre ++ [104, v]) ++ ((rest.map fun x => [104, x]).flatten ++ [99]) := by
      simp
    have hidx : (pre.length : Int) + 2 = (((pre ++ [104, v]).length : Nat) : Int) := by
      push_cast [List.length_append, List.length_cons, List.length_nil]
      ring
    rw [hre, hidx, ih (pre ++ [104, v]) ins (outs ++ [v]) off]
    have houts : (outs ++ [v]) ++ rest = outs ++ v :: rest := by simp
    have hlen2 : (((pre ++ [104, v]).length : Nat) : Int) + 2 * (rest.length : Int)
        = (pre.length : Int) + 2 * (((v :: rest).length : Nat) : Int) := by
      push_cast [List.length_append, List.length_cons, List.length_nil]
      ring
    rw [houts, hlen2]

end Day09

/-! ## Claim theorems -/

/-- C1: whenever a run reaches an input instruction (opcode 3) while the
input channel is empty, it returns the suspended sentinel with the machine
state untouched: the instruction pointer still addresses that very input
instruction, and channel, memory (not even extended by the fetch) and
relative base are exactly as they were, so a later `run` call re-attempts
exactly that instruction. -/
theorem c1_suspension_preserves_state :
    (∀ (s : Day09.IntProgram) (w : Int) (p1 : List Int),
      Day09.memRead s.program s.index = .ok (w, p1) →
      (Day09.decode w).1 = 3 → s.inputs = [] →
      ∀ f : Nat, Day09.loopFuel (f + 1) s = .suspended s) ∧
    (∀ (f : Nat) (s s1 : Day09.IntProgram),
      Day09.loopFuel f s = .suspended s1 →
      s1.inputs = [] ∧
      (∃ w, Day09.memRead s1.program s1.index = .ok (w, s1.program) ∧
        (Day09.decode w).1 = 3) ∧
      ∀ g : Nat, Day09.loopFuel (g + 1) s1 = .suspended s1) ∧
    (∀ (fuel : Nat) (s : Day09.IntProgram) (v : Option Int)
      (s1 : Day09.IntProgram),
      Day09.run fuel s v = .suspended s1 →
      s1.inputs = [] ∧ Day09.step s1 = .ok (.suspend s1)) := by
  refine ⟨?_, ?_, ?_⟩
  · intro s w p1 hf hop hin f
    exact Day09.loopFuel_of_suspend (Day09.step_input_empty hf hop hin) f
  · intro f s s1 h
    obtain ⟨hin, hw, hstep⟩ := Day09.loopFuel_suspended_char h
    exact ⟨hin, hw, Day09.loopFuel_of_suspend hstep⟩
  · intro fuel s v s1 h
    obtain ⟨hin, -, hstep⟩ := Day09.loopFuel_suspended_char (Day09.run_suspended h)
    exact ⟨hin, hstep⟩

theorem c1_witness :
    (Day09.init [3, 0]).inputs = [] ∧
    (∃ w, Day09.memRead (Day09.init [3, 0]).program (Day09.init [3, 0]).index
      = .ok (w, (Day09.init [3, 0]).program) ∧ (Day09.decode w).1 = 3) ∧
    ∀ g : Nat, Day09.loopFuel (g + 1) (Day09.init [3, 0])
      = .suspended (Day09.init [3, 0]) :=
  c1_suspension_preserves_state.2.1 1 (Day09.init [3, 0]) (Day09.init [3, 0])
    (by rfl)

/-- C2 counterexample: the one-cell program `[99]` halts without ever having
produced an output, and `run` then fails (the `IndexError` of
`self.outputs[-1]`) instead of returning a well-defined halted report. -/
theorem c2_counterexample :
    Day09.run 1 (Day09.init [99]) none = .failed .emptyOutputs := by rfl

/-- C2 (amended): when execution reaches a halt instruction, `run` reports
termination carrying the last value on the output channel provided at least
one output was ever produced; if the program halts with an empty output
channel, `run` fails with the empty-output error instead of returning. -/
theorem c2_halt_report :
    (∀ (fuel : Nat) (s : Day09.IntProgram) (v : Option Int) (r : Int)
      (s1 : Day09.IntProgram),
      Day09.run fuel s v = .returns r s1 → s1.outputs.getLast? = some r) ∧
    (∀ (fuel : Nat) (s : Day09.IntProgram) (v : Option Int)
      (s1 : Day09.IntProgram),
      Day09.loopFuel fuel (Day09.pushOpt s v) = .halted s1 →
      (s1.outputs = [] → Day09.run fuel s v = .failed .emptyOutputs) ∧
      (∀ r : Int, s1.outputs.getLast? = some r →
        Day09.run fuel s v = .returns r s1)) := by
  refine ⟨fun fuel s v r s1 h => (Day09.run_returns h).2, ?_⟩
  intro fuel s v s1 hl
  constructor
  · intro hout
    exact Day09.run_of_halted_none (by rw [hout]; rfl) hl
  · intro r hg
    exact Day09.run_of_halted hg hl

theorem c2_witness :
    Day09.run 2 (Day09.init [104, 7, 99]) none
      = .returns 7 ⟨[104, 7, 99], [], [7], 0, 2⟩ :=
  (c2_halt_report.2 2 (Day09.init [104, 7, 99]) none
    ⟨[104, 7, 99], [], [7], 0, 2⟩ (by rfl)).2 7 (by rfl)

/-- C3: driving the engine by supplying the needed inputs one at a time
across repeated `run` calls, resuming after each suspension, produces the
same final output sequence and the same halting return value as queueing
all the inputs before a single `run` call. -/
theorem c3_incremental_matches_batch :
    ∀ (vs : List Int) (fuel : Nat) (s : Day09.IntProgram) (r : Int)
      (s1 : Day09.IntProgram),
      Day09.drive fuel s vs = .returns r s1 →
      ∃ (g : Nat) (s2 : Day09.IntProgram),
        Day09.run g { s with inputs := s.inputs ++ vs } none = .returns r s2 ∧
        s2.outputs = s1.outputs := by
  intro vs
  induction vs with
  | nil =>
    intro fuel s r s1 h
    refine ⟨fuel, s1, ?_, rfl⟩
    have heq : { s with inputs := s.inputs ++ [] } = s := by
      obtain ⟨p, ins, outs, off, i⟩ := s
      simp
    rw [heq]
    exact h
  | cons v rest ih =>
    intro fuel s r s1 h
    cases hr : Day09.run fuel s (some v) with
    | fuel => simp [Day09.drive, hr] at h
    | failed e => simp [Day09.drive, hr] at h
    | returns r0 s0 =>
      simp only [Day09.drive, hr] at h
      obtain ⟨rfl, rfl⟩ := Day09.RunRes.returns.inj h
      obtain ⟨hl, hg⟩ := Day09.run_returns hr
      have happ := Day09.loopFuel_halted_app rest hl
      refine ⟨fuel, { s0 with inputs := s0.inputs ++ rest }, ?_, rfl⟩
      refine Day09.run_of_halted (show ({ s0 with inputs := s0.inputs ++ rest }
        : Day09.IntProgram).outputs.getLast? = some r0 from hg) ?_
      have heq : { Day09.pushOpt s (some v) with
          inputs := (Day09.pushOpt s (some v)).inputs ++ rest }
          = { s with inputs := s.inputs ++ (v :: rest) } := by
        obtain ⟨p, ins, outs, off, i⟩ := s
        simp [Day09.pushOpt]
      rw [show Day09.pushOpt { s with inputs := s.inputs ++ (v :: rest) } none
          = { s with inputs := s.inputs ++ (v :: rest) } from rfl, ← heq]
      exact happ
    | suspended s0 =>
      simp only [Day09.drive, hr] at h
      obtain ⟨g, s2, hrun, houts⟩ := ih fuel s0 r s1 h
      have hlsusp := Day09.run_suspended hr
      obtain ⟨hl2, hg2⟩ := Day09.run_returns hrun
      have hl2e : Day09.loopFuel g { s0 with inputs := s0.inputs ++ rest }
          = .halted s2 := hl2
      have hcomp := Day09.loopFuel_suspend_then hlsusp hl2e
      refine ⟨fuel + g, s2, ?_, houts⟩
      apply Day09.run_of_halted hg2
      have heq : { Day09.pushOpt s (some v) with
          inputs := (Day09.pushOpt s (some v)).inputs ++ rest }
          = { s with inputs := s.inputs ++ (v :: rest) } := by
        obtain ⟨p, ins, outs, off, i⟩ := s
        simp [Day09.pushOpt]
      rw [show Day09.pushOpt { s with inputs := s.inputs ++ (v :: rest) } none
          = { s with inputs := s.inputs ++ (v :: rest) } from rfl, ← heq]
      exact hcomp

theorem c3_witness :
    ∃ (g : Nat) (s2 : Day09.IntProgram),
      Day09.run g { Day09.init [3, 0, 3, 0, 4, 0, 99] with
        inputs := (Day09.init [3, 0, 3, 0, 4, 0, 99]).inputs ++ [5, 7] } none
        = .returns 7 s2 ∧
      s2.outputs =
        (⟨[7, 0, 3, 0, 4, 0, 99], [], [7], 0, 6⟩ : Day09.IntProgram).outputs :=
  c3_incremental_matches_batch [5, 7] 20 (Day09.init [3, 0, 3, 0, 4, 0, 99]) 7
    ⟨[7, 0, 3, 0, 4, 0, 99], [], [7], 0, 6⟩ (by rfl)

/-- C4 counterexample: for the negative instruction word `-1101` the third
operand's mode character is the sign `'-'`, which does not default to
positional: it resolves, immediate-style, to the raw index `ip + 3 = 3`,
whereas the positional default the claim prescribes would resolve to
`read(ip + 3) = 7`. -/
theorem c4_counterexample :
    (Day09.decode (-1101)).2.reverse.getD 2 '0' = '-' ∧
    Day09.resolveOne [-1101, 5, 6, 7, 99] 0
      ((Day09.decode (-1101)).2.reverse.getD 2 '0') 3
      = .ok (3, [-1101, 5, 6, 7, 99]) ∧
    Day09.memRead [-1101, 5, 6, 7, 99] 3 = .ok (7, [-1101, 5, 6, 7, 99]) ∧
    (3 : Int) ≠ 7 :=
  ⟨by rfl, by rfl, by rfl, by decide⟩

/-- C4 (amended): the decoder yields opcode equal to the low two decimal
digits of the word's absolute value; for non-negative words the per-operand
modes are the remaining digits read least-significant-first, defaulting to
positional beyond the digits present; a read operand resolves to
`read(ip+k)` as an address in positional mode, to `ip+k` itself in immediate
mode, and to `read(ip+k) + relative_base` in relative mode — write targets
go through the same positional/relative resolution.  (For negative words the
sign character occupies a mode position and falls through as immediate; see
the counterexample.) -/
theorem c4_decoder_resolution :
    (∀ w : Int, (Day09.decode w).1 = w.natAbs % 100) ∧
    (∀ w : Int, 0 ≤ w → ∀ k : Nat,
      (Day09.decode w).2.reverse.getD k '0'
        = Nat.digitChar (w.natAbs / 10 ^ (k + 2) % 10)) ∧
    (∀ (p : List Int) (off i v : Int) (p1 : List Int),
      Day09.memRead p i = .ok (v, p1) → 0 ≤ v →
      Day09.resolveOne p off '0' i = .ok (v, Day09.extend p1 v.toNat)) ∧
    (∀ (p : List Int) (off i : Int), 0 ≤ i →
      Day09.resolveOne p off '1' i = .ok (i, Day09.extend p i.toNat)) ∧
    (∀ (p : List Int) (off i v : Int) (p1 : List Int),
      Day09.memRead p i = .ok (v, p1) → 0 ≤ v + off →
      Day09.resolveOne p off '2' i
        = .ok (v + off, Day09.extend p1 (v + off).toNat)) := by
  refine ⟨Day09.decode_fst, Day09.decode_modes, ?_, ?_, ?_⟩
  · intro p off i v p1 h hv
    exact Day09.resolveOne_positional h hv
  · intro p off i hi
    exact Day09.resolveOne_immediate p off hi
  · intro p off i v p1 h hvo
    exact Day09.resolveOne_relative h hvo

theorem c4_witness :
    (Day09.decode 1002).1 = 2 ∧
    (Day09.decode 1002).2.reverse.getD 0 '0' = '0' ∧
    (Day09.decode 1002).2.reverse.getD 1 '0' = '1' ∧
    Day09.resolveOne [1002, 4, 3, 4] 0 '0' 1 = .ok (4, [1002, 4, 3, 4, 0]) ∧
    Day09.resolveOne [1002, 4, 3, 4] 0 '1' 1 = .ok (1, [1002, 4, 3, 4]) ∧
    Day09.resolveOne [1002, 4, 3, 4] 10 '2' 1
      = .ok (14, [1002, 4, 3, 4] ++ List.replicate 11 0) :=
  ⟨c4_decoder_resolution.1 1002,
   c4_decoder_resolution.2.1 1002 (by decide) 0,
   c4_decoder_resolution.2.1 1002 (by decide) 1,
   c4_decoder_resolution.2.2.1 [1002, 4, 3, 4] 0 1 4 [1002, 4, 3, 4]
     (by rfl) (by decide),
   c4_decoder_resolution.2.2.2.1 [1002, 4, 3, 4] 0 1 (by decide),
   c4_decoder_resolution.2.2.2.2 [1002, 4, 3, 4] 10 1 4 [1002, 4, 3, 4]
     (by rfl) (by decide)⟩

/-- C5: reading or writing at or beyond the current memory extent first
extends storage with zero cells up to and including the requested address
(so a read of a never-written cell yields 0), and across every engine
operation — single steps and whole runs — the memory length never
decreases. -/
theorem c5_memory_autoextend_monotone :
    (∀ (p : List Int) (a : Nat) (v : Int), p.length ≤ a →
      Day09.memRead p (a : Int)
        = .ok (0, p ++ List.replicate (a + 1 - p.length) 0) ∧
      (p ++ List.replicate (a + 1 - p.length) 0).length = a + 1 ∧
      Day09.memWrite p (a : Int) v
        = .ok ((p ++ List.replicate (a + 1 - p.length) 0).set a v)) ∧
    (∀ (s : Day09.IntProgram) (c : Day09.Ctl), Day09.step s = .ok c →
      s.program.length ≤ c.state.program.length) ∧
    (∀ (f : Nat) (s s1 : Day09.IntProgram),
      Day09.loopFuel f s = .suspended s1 ∨ Day09.loopFuel f s = .halted s1 →
      s.program.length ≤ s1.program.length) := by
  refine ⟨?_, fun s c h => Day09.step_length h, fun f s s1 h => Day09.loopFuel_length h⟩
  intro p a v ha
  have hnn : ¬ ((a : Int) < 0) := by omega
  have ht : ((a : Int)).toNat = a := by omega
  have hext : Day09.extend p a = p ++ List.replicate (a + 1 - p.length) 0 := by
    unfold Day09.extend
    rw [if_pos ha]
  have hget : (p ++ List.replicate (a + 1 - p.length) 0).getD a 0 = 0 := by
    rw [List.getD_eq_getElem?_getD, List.getElem?_append_right ha,
      List.getElem?_replicate]
    have hlt : a - p.length < a + 1 - p.length := by omega
    simp [hlt]
  refine ⟨?_, by simp [List.length_replicate]; omega, ?_⟩
  · rw [Day09.memRead, if_neg hnn, ht, hext, hget]
  · rw [Day09.memWrite, if_neg hnn, ht, hext]

theorem c5_witness :
    Day09.memRead [1, 2] ((4 : Nat) : Int) = .ok (0, [1, 2, 0, 0, 0]) ∧
    ([1, 2, 0, 0, 0] : List Int).length = 4 + 1 ∧
    Day09.memWrite [1, 2] ((4 : Nat) : Int) 9 = .ok [1, 2, 0, 0, 9] :=
  c5_memory_autoextend_monotone.1 [1, 2] 4 9 (by decide)

/-- C6 counterexample: in the day-07 engine the program `[4, -1, 99]` reads
memory address `-1` during execution (position-mode operand of the output
instruction); Python list indexing silently wraps to the last cell, so the
run outputs `99` and returns it instead of failing with an out-of-bounds
error. -/
theorem c6_counterexample :
    Day07.run 2 (Day07.init [4, -1, 99]) none
      = .returns 99 ⟨[4, -1, 99], [], [99], 2⟩ := by rfl

/-- C6 (amended): in the day-09/11 engine every negative-address memory read
or write fails with the fatal out-of-bounds assertion; in the day-07 engine
a negative address `-n` with `n ≤ len` silently wraps around (Python
negative indexing) and reads or writes the cell `n` places from the end. -/
theorem c6_negative_addresses :
    (∀ (p : List Int) (i : Int), i < 0 →
      Day09.memRead p i = .error .outOfBounds ∧
      ∀ v : Int, Day09.memWrite p i v = .error .outOfBounds) ∧
    (∀ (p : List Int) (i : Int), i < 0 → i.natAbs ≤ p.length →
      Day07.pyGet p i = .ok (p.getD (p.length - i.natAbs) 0) ∧
      ∀ v : Int, Day07.pySet p i v = .ok (p.set (p.length - i.natAbs) v)) := by
  constructor
  · intro p i hi
    exact ⟨by rw [Day09.memRead, if_pos hi],
      fun v => by rw [Day09.memWrite, if_pos hi]⟩
  · intro p i hi hlen
    have hidx : Day07.pyIdx p i = .ok (p.length - i.natAbs) := by
      unfold Day07.pyIdx
      rw [if_neg (by omega), if_pos hlen]
    exact ⟨by simp only [Day07.pyGet, hidx],
      fun v => by simp only [Day07.pySet, hidx]⟩

theorem c6_witness :
    Day09.memRead [5] (-1) = .error .outOfBounds ∧
    Day09.memWrite [5] (-1) 3 = .error .outOfBounds ∧
    Day07.pyGet [4, -1, 99] (-1) = .ok 99 :=
  ⟨(c6_negative_addresses.1 [5] (-1) (by decide)).1,
   (c6_negative_addresses.1 [5] (-1) (by decide)).2 3,
   (c6_negative_addresses.2 [4, -1, 99] (-1) (by decide) (by decide)).1⟩

set_option maxRecDepth 20000 in
/-- C7: the five-amplifier feedback ring on the example controller program,
with phase sequence 9,8,7,6,5 fed once to each engine before the rounds and
initial signal 0, terminates with final captured value 139629729. -/
theorem c7_feedback_ring :
    Day07.runAmplifier 100 10
      [3, 26, 1001, 26, -4, 26, 3, 27, 1002, 27, 2, 27, 1, 27, 26, 27, 4, 27,
        1001, 28, -1, 28, 1005, 28, 6, 99, 0, 0, 5]
      [9, 8, 7, 6, 5] 0 = .ok 139629729 := by rfl

/-- C8: a fetched word whose opcode is outside the recognised set
`{1,…,9,99}` makes the step fail with the unrecognized-instruction error,
and the run loop terminates immediately with that failure — it is never
retried and execution never continues past the word. -/
theorem c8_unrecognized_opcode_fatal :
    ∀ (s : Day09.IntProgram) (w : Int) (p1 : List Int),
      Day09.memRead s.program s.index = .ok (w, p1) →
      (Day09.decode w).1 ∉ ([1, 2, 3, 4, 5, 6, 7, 8, 9, 99] : List Nat) →
      Day09.step s = .error (.unrecognized w) ∧
      ∀ f : Nat, Day09.loopFuel (f + 1) s = .failed (.unrecognized w) := by
  intro s w p1 hf hmem
  simp only [List.mem_cons, List.not_mem_nil, or_false, not_or] at hmem
  obtain ⟨h1, h2, h3, h4, h5, h6, h7, h8, h9, h99⟩ := hmem
  have hstep : Day09.step s = .error (.unrecognized w) := by
    obtain ⟨p, ins, outs, off, i⟩ := s
    simp only [Day09.step, hf]
    rw [if_neg (by omega), if_neg (by omega), if_neg (by omega),
      if_neg (by omega), if_neg (by omega), if_neg (by omega)]
  exact ⟨hstep, fun f => by simp only [Day09.loopFuel, hstep]⟩

theorem c8_witness :
    Day09.step (Day09.init [55]) = .error (.unrecognized 55) ∧
    ∀ f : Nat, Day09.loopFuel (f + 1) (Day09.init [55])
      = .failed (.unrecognized 55) :=
  c8_unrecognized_opcode_fatal (Day09.init [55]) 55 [55] (by rfl) (by decide)

/-- C9: the program `104, v1, 104, v2, …, 99` built from immediate-mode
output instructions, run with an empty input channel, appends exactly
`v1 … vn` to the output channel in order and then executes the halt
instruction (the loop exits in the halted state). -/
theorem c9_output_literal_programs (vs : List Int) :
    Day09.loopFuel (vs.length + 1) (Day09.init (Day09.outProg vs))
      = .halted ⟨Day09.outProg vs, [], vs, 0, 2 * (vs.length : Int)⟩ := by
  have h := Day09.c9_aux vs [] [] [] 0
  simpa [Day09.init, Day09.outProg] using h

/-- C10: an operand whose mode character lies outside `{'0','1','2'}` (for
example the digit `'3'`, or the `'-'` sign character of a negative word)
falls through `get_indices` silently and behaves exactly as immediate mode,
resolving to the raw cell index `ip + k` with no error. -/
theorem c10_unknown_mode_fallthrough :
    ∀ m : Char, m ≠ '0' → m ≠ '1' → m ≠ '2' →
    ∀ (p : List Int) (off i : Int),
      Day09.resolveOne p off m i = Day09.resolveOne p off '1' i ∧
      (0 ≤ i → Day09.resolveOne p off m i = .ok (i, Day09.extend p i.toNat)) := by
  intro m h0 h1 h2 p off i
  refine ⟨Day09.resolveOne_fallthrough p off m i h0 h1 h2, fun hi => ?_⟩
  rw [Day09.resolveOne_fallthrough p off m i h0 h1 h2]
  exact Day09.resolveOne_immediate p off hi

theorem c10_witness :
    Day09.resolveOne [104, 5] 0 '3' 1 = Day09.resolveOne [104, 5] 0 '1' 1 ∧
    Day09.resolveOne [104, 5] 0 '3' 1 = .ok (1, [104, 5]) ∧
    Day09.resolveOne [304, 5, 6, 7] 0 '-' 1 = .ok (1, [304, 5, 6, 7]) :=
  ⟨(c10_unknown_mode_fallthrough '3' (by decide) (by decide) (by decide)
      [104, 5] 0 1).1,
   (c10_unknown_mode_fallthrough '3' (by decide) (by decide) (by decide)
      [104, 5] 0 1).2 (by decide),
   (c10_unknown_mode_fallthrough '-' (by decide) (by decide) (by decide)
      [304, 5, 6, 7] 0 1).2 (by decide)⟩

end AoC
